import Mathlib

/-!
Shallow embedding of the folker test-execution engine core
(`folker/model/entity.py`, `folker.py`), together with theorems checking
the natural-language specification against it.

Python dictionaries are embedded as insertion-ordered association lists
over string keys: `dict.get`/`dict[k] = v` become `dictGet`/`dictSet`
(update-in-place for an existing key, append for a new one),
`{**a, **b}` becomes `pyDictMerge a b`, and `dict.popitem()` removes the
last (most recently inserted) entry, as documented for CPython ≥ 3.7.
Python integer comparisons written `is not` in the source are embedded
as `≠`, which is their behaviour on the small interned integers that
occur as counters here.
-/

namespace Folker

/-- Python run-time values as they occur in test/stage contexts:
integers, strings, booleans, lists, and (ordered) dictionaries. -/
inductive Val : Type where
  | vInt (n : Int)
  | vStr (s : String)
  | vBool (b : Bool)
  | vList (elems : List Val)
  | vDict (entries : List (String × Val))

/-- A Python dict with string keys: `test_context`, `stage_context`. -/
abbrev Ctx := List (String × Val)

section DictOps

variable {α : Type}

/-- `d.get(k)` / `d[k]`: first entry with key `k`. -/
def dictGet (d : List (String × α)) (k : String) : Option α :=
  match d with
  | [] => none
  | (k', v) :: rest => if k' = k then some v else dictGet rest k

/-- `d[k] = v`: replace the value of an existing key in place
(keeping insertion order), else append the new entry at the end. -/
def dictSet (d : List (String × α)) (k : String) (v : α) : List (String × α) :=
  match d with
  | [] => [(k, v)]
  | (k', v') :: rest =>
      if k' = k then (k', v) :: rest else (k', v') :: dictSet rest k v

/-- `{**a, **b}`: start from `a` and write every entry of `b` over it,
so on a key collision the entry of `b` (the later spread) wins. -/
def pyDictMerge (a b : List (String × α)) : List (String × α) :=
  b.foldl (fun acc kv => dictSet acc kv.1 kv.2) a

end DictOps

/-- The opening brace character, written by code point so that braces
stay out of string literals. -/
def lbrace : Char := Char.ofNat 123

/-- The closing brace character. -/
def rbrace : Char := Char.ofNat 125

/-- Python `str.split(sep)` for a one-character separator, on the
character list: `"a.b" ↦ ["a","b"]`, `"" ↦ [""]`, `"a." ↦ ["a",""]`. -/
def splitOnChar (sep : Char) : List Char → List (List Char)
  | [] => [[]]
  | c :: rest =>
      let r := splitOnChar sep rest
      if c = sep then [] :: r
      else
        match r with
        | [] => [[c]]
        | h :: t => (c :: h) :: t

/-- `variable.split('.')` from the source, as strings. -/
def pySplitDot (s : String) : List String :=
  (splitOnChar '.' s.toList).map String.mk

/-- Dotted-path descent inside a value: follow the remaining keys of an
`a.b.c` reference through nested dictionaries. -/
def lookupPathVal : Val → List String → Option Val
  | v, [] => some v
  | Val.vDict d, k :: rest =>
      match dictGet d k with
      | some v => lookupPathVal v rest
      | none => none
  | _, _ :: _ => none

/-- Dotted-path lookup starting from a context mapping. -/
def lookupCtxPath (c : Ctx) : List String → Option Val
  | [] => none
  | k :: rest =>
      match dictGet c k with
      | some v => lookupPathVal v rest
      | none => none

mutual

/-- Modelled from the spec: the textual form a resolved value takes when
substituted into templated text (the Variable Resolver of
`folker/util/variable.py` is not under `src/`). -/
def valToString : Val → String
  | Val.vInt n => toString n
  | Val.vStr s => s
  | Val.vBool b => if b then "True" else "False"
  | Val.vList l => "[" ++ valListToString l ++ "]"
  | Val.vDict d => "\x7b" ++ valEntriesToString d ++ "\x7d"

def valListToString : List Val → String
  | [] => ""
  | [v] => valToString v
  | v :: rest => valToString v ++ ", " ++ valListToString rest

def valEntriesToString : List (String × Val) → String
  | [] => ""
  | [(k, v)] => k ++ ": " ++ valToString v
  | (k, v) :: rest => k ++ ": " ++ valToString v ++ ", " ++ valEntriesToString rest

end

/-- Modelled from the spec: resolution of one variable reference
(`folker/util/variable.py` is not under `src/`). Lookup order is
stageContext first, falling back to testContext; dotted paths descend
nested mappings; an unresolved reference is substituted with a visible
placeholder (the reference itself), non-fatally. -/
def resolveRef (tc sc : Ctx) (ref : String) : String :=
  let path := pySplitDot ref
  match lookupCtxPath sc path with
  | some v => valToString v
  | none =>
      match lookupCtxPath tc path with
      | some v => valToString v
      | none => "$\x7b" ++ ref ++ "\x7d"

/-- The character scanner behind `replaceVariables`: outside a
reference (`none` state) it copies characters and enters a reference on
`$` followed by an opening brace; inside a reference (`some acc` state)
it collects the reference text until the closing brace and substitutes
its resolution; an unterminated reference is left as literal text. -/
def scanRefs (tc sc : Ctx) : List Char → Option (List Char) → List Char
  | [], none => []
  | [], some acc => '$' :: lbrace :: acc.reverse
  | c :: rest, some acc =>
      if c = rbrace then
        (resolveRef tc sc (String.mk acc.reverse)).toList ++ scanRefs tc sc rest none
      else scanRefs tc sc rest (some (c :: acc))
  | c :: c2 :: rest, none =>
      if c = '$' ∧ c2 = lbrace then scanRefs tc sc rest (some [])
      else c :: scanRefs tc sc (c2 :: rest) none
  | [c], none => [c]

/-- Modelled from the spec: `replace_variables` from
`folker/util/variable.py` (not under `src/`). Every `$[brace]ref[brace]`
reference embedded in the text is replaced by its resolved value's
textual form; resolution never raises. -/
def replaceVariables (tc sc : Ctx) (text : String) : String :=
  String.mk (scanRefs tc sc text.toList none)

/-! ### StageSave (`folker/model/entity.py`, lines 29-82) -/

mutual

/-- Structural size of a value, measuring the recursion depth available
to `mergeEntriesFuel`. -/
def valSize : Val → Nat
  | Val.vInt _ => 1
  | Val.vStr _ => 1
  | Val.vBool _ => 1
  | Val.vList l => 1 + valListSize l
  | Val.vDict d => 1 + valEntriesSize d

def valListSize : List Val → Nat
  | [] => 0
  | v :: rest => 1 + valSize v + valListSize rest

def valEntriesSize : List (String × Val) → Nat
  | [] => 0
  | (_, v) :: rest => 1 + valSize v + valEntriesSize rest

end

/-- `StageSave._merge_dictionaries`, inner loop on the entries of
`new_values`: a key whose existing and new values are both dictionaries
is merged recursively (in place), any other key is overwritten. `fuel`
makes the recursion structural; both recursive calls move to a strictly
smaller `new_values` (by `valEntriesSize`), so any fuel above
`valEntriesSize new_values` (as supplied by the `mergeEntries` wrapper)
never reaches `0`. -/
def mergeEntriesFuel : Nat → List (String × Val) → List (String × Val) → List (String × Val)
  | 0, stable, _ => stable
  | _ + 1, stable, [] => stable
  | fuel + 1, stable, (k, Val.vDict nv) :: rest =>
      (match dictGet stable k with
       | some (Val.vDict od) =>
           mergeEntriesFuel fuel (dictSet stable k (Val.vDict (mergeEntriesFuel fuel od nv))) rest
       | _ => mergeEntriesFuel fuel (dictSet stable k (Val.vDict nv)) rest)
  | fuel + 1, stable, (k, v) :: rest => mergeEntriesFuel fuel (dictSet stable k v) rest

/-- The entry loop of `StageSave._merge_dictionaries`, with enough fuel
for its input. -/
def mergeEntries (stable newValues : List (String × Val)) : List (String × Val) :=
  mergeEntriesFuel (valEntriesSize newValues + 1) stable newValues

/-- `StageSave._merge_dictionaries(stable, new_values)`. When
`new_values` is empty it returns `stable` untouched; otherwise Python
iterates `new_values` and evaluates `k in stable`, which raises a
`TypeError` (modelled as `Except.error ()`) whenever `stable` is not a
dictionary (`'k' in 5` raises; on strings and lists the subsequent
indexing or item assignment raises). -/
def mergeDictionaries (stable : Val) (newValues : List (String × Val)) : Except Unit Val :=
  if newValues.isEmpty then Except.ok stable
  else
    match stable with
    | Val.vDict d => Except.ok (Val.vDict (mergeEntries d newValues))
    | _ => Except.error ()

/-- The nested singleton dictionary `\x7bp1: \x7bp2: ... \x7bpk: value\x7d...\x7d`
that `_resolve_variable` builds from `variable_children[1:]` (the code
starts from `\x7blast: value\x7d` and wraps it in reversed middle keys;
this right fold builds the same value). -/
def buildNested : List String → Val → List (String × Val)
  | [], _ => []
  | [k], v => [(k, v)]
  | k :: rest, v => [(k, Val.vDict (buildNested rest v))]

/-- `StageSave._resolve_variable(test_context, variable, value)`:
a dot-free variable is written directly into the test context; a dotted
path is split, the nested singleton dictionary is built, and it is
merged over the existing root entry (defaulting to `\x7b\x7d`), which can
raise a `TypeError` when the existing root value is not a mapping. -/
def resolveVariable (tc : Ctx) (varName : String) (value : Val) : Except Unit Ctx :=
  match pySplitDot varName with
  | [] => Except.ok tc
  | [_] => Except.ok (dictSet tc varName value)
  | root :: rest =>
      match mergeDictionaries ((dictGet tc root).getD (Val.vDict [])) (buildNested rest value) with
      | Except.ok merged => Except.ok (dictSet tc root merged)
      | Except.error e => Except.error e

/-- `StageSave.execute`. The expression evaluator (`map_variables`
followed by Python `eval`, from `folker/util/variable.py`, not under
`src/`) is abstracted as the oracle `evalE`; evaluation failure of any
kind is its `Except.error` case. The saved key is first passed through
`replace_variables(test_context, stage_context, variable)`; on
evaluation failure the stored value falls back to
`replace_variables(test_context=\x7b\x7d, stage_context=stage_context, text=saving)`
— note the empty test context. The write itself (`_resolve_variable`)
happens outside the `try` block, so its `TypeError` propagates. -/
def saveExecute (evalE : Ctx → Ctx → String → Except Unit Val) :
    List (String × String) → Ctx → Ctx → Except Unit (Ctx × Ctx)
  | [], tc, sc => Except.ok (tc, sc)
  | (varName, saving) :: rest, tc, sc =>
      let variableR := replaceVariables tc sc varName
      let savingValue :=
        match evalE tc sc saving with
        | Except.ok v => v
        | Except.error _ => Val.vStr (replaceVariables [] sc saving)
      match resolveVariable tc variableR savingValue with
      | Except.ok tcNew => saveExecute evalE rest tcNew sc
      | Except.error e => Except.error e

/-! ### StageAssertions (`folker/model/entity.py`, lines 107-168) -/

/-- The assertion-stage exception taxonomy of
`folker/model/error/assertions.py`: `UnresolvableAssertionException`,
`MalformedAssertionException` and `TestFailException`. -/
inductive AssertErr : Type where
  | unresolvableAssertion (assertion : String)
  | malformedAssertion (assertion : String)
  | testFail (failureMessages : List String)

/-- `StageAssertions._assert_individual`: evaluate the assertion; an
evaluation failure raises `UnresolvableAssertionException`, a non-boolean
result raises `MalformedAssertionException`; a boolean result is
returned (after being reported to the logging sink). -/
def assertIndividual (evalE : Ctx → Ctx → String → Except Unit Val)
    (tc sc : Ctx) (assertion : String) : Except AssertErr Bool :=
  match evalE tc sc assertion with
  | Except.error _ => Except.error (AssertErr.unresolvableAssertion assertion)
  | Except.ok (Val.vBool b) => Except.ok b
  | Except.ok _ => Except.error (AssertErr.malformedAssertion assertion)

/-- The `for assertion_definition in assertion_definitions` loop of
`StageAssertions.execute` together with `_wrap_up_test`: counters
`executed`/`success` and the ordered `failures` list are threaded; the
first raising assertion short-circuits; at the end
`success is not executed` (on these small interned integers, `≠`)
raises `TestFailException(failures)`. -/
def assertionsLoop (evalE : Ctx → Ctx → String → Except Unit Val) (tc sc : Ctx) :
    List String → Nat → Nat → List String → Except AssertErr (Ctx × Ctx)
  | [], executed, success, failures =>
      if success ≠ executed then Except.error (AssertErr.testFail failures)
      else Except.ok (tc, sc)
  | a :: rest, executed, success, failures =>
      match assertIndividual evalE tc sc a with
      | Except.error e => Except.error e
      | Except.ok true => assertionsLoop evalE tc sc rest (executed + 1) (success + 1) failures
      | Except.ok false => assertionsLoop evalE tc sc rest (executed + 1) success (failures ++ [a])

/-- `StageAssertions.execute`: an empty assertion list returns the
contexts untouched; otherwise the loop runs with counters starting at
`0, 0, []`. -/
def assertionsExecute (evalE : Ctx → Ctx → String → Except Unit Val)
    (assertions : List String) (tc sc : Ctx) : Except AssertErr (Ctx × Ctx) :=
  if assertions.isEmpty then Except.ok (tc, sc)
  else assertionsLoop evalE tc sc assertions 0 0 []

/-! ### Stage enrichment (`folker/model/entity.py`, lines 23-26, 39-41, 92-95, 114-117, 203-226) -/

/-- Modelled from the spec for the variant-specific part: an action as a
fixed tuple of optional sub-fields (concrete `Action` variants live
outside `src/`; `Action._set_attribute_if_missing`, entity.py lines
24-26, is the per-attribute primitive they apply). -/
abbrev ActionM := List (Option Val)

/-- `Action._set_attribute_if_missing` applied attribute-wise: a
sub-field keeps the stage's own value when present and takes the
template's only when the stage's is `None`. -/
def actionFill (a t : ActionM) : ActionM :=
  List.zipWith (fun x y => match x with | some v => some v | none => y) a t

/-- Variant `enrich(template_action)` when the template's action may be
absent: with a template action present the missing sub-fields are
filled; with no template action, reading an attribute off `None` raises
`AttributeError` (modelled as `none`) as soon as some own sub-field is
missing, and otherwise nothing is touched. -/
def actionEnrichWith (a : ActionM) (t : Option ActionM) : Option ActionM :=
  match t with
  | some ta => some (actionFill a ta)
  | none => if a.all Option.isSome then some a else none

/-- The fields of `Stage` that `Stage.enrich` reads and writes. The
`save`, `log` and `assertions` wrappers (`StageSave`, `StageLog`,
`StageAssertions`) are always truthy Python objects, so only their inner
collections matter here; `action` is `None` until set. -/
structure StageM where
  name : Option String
  foreach : List (String × String)
  action : Option ActionM
  save : List (String × String)
  logs : List String
  assertions : List String

/-- `Stage.enrich(template)` (entity.py lines 203-226): `name` is filled
only when missing; `foreach` is replaced by `\x7b**self.foreach,
**template.foreach\x7d` only when the stage's own `foreach` is non-empty;
`action` is enriched when present, else copied from the template (a
template without an action makes that copy raise `AttributeError`,
modelled as `none`); the `save` wrapper is always truthy, so its dict is
always replaced by `\x7b**self.save, **template.save\x7d`; the `log` and
`assertions` wrappers are always truthy, so their lists always become
the stage's entries followed by the template's. -/
def stageEnrich (s t : StageM) : Option StageM :=
  let newName := match s.name with | some n => some n | none => t.name
  let newForeach := if s.foreach ≠ [] then pyDictMerge s.foreach t.foreach else s.foreach
  let newAction :=
    match s.action with
    | some a => actionEnrichWith a t.action
    | none => t.action
  match newAction with
  | none => none
  | some act =>
      some ⟨newName, newForeach, some act, pyDictMerge s.save t.save,
            s.logs ++ t.logs, s.assertions ++ t.assertions⟩

/-! ### Foreach expansion (`folker/model/entity.py`, lines 241-252) -/

section ForeachExec

variable {ε : Type}

/-- One iteration of the `for index, value in enumerate(values)` loop
of `Stage.execute`: derive
`[brace]**stage_context, key: value, key+_index: index[brace]`, recursively
execute the stage, and thread the test context and the (mutated)
`foreach` state into the next iteration; once an error has been raised
the remaining iterations do not run (the threaded error state is
returned unchanged). -/
def foreachStep (exec : List (String × String) → Ctx → Ctx →
      Except ε Ctx × List (String × String) × List Ctx)
    (key : String) (sc : Ctx)
    (st : Except ε Ctx × List (String × String) × List Ctx)
    (iv : Nat × Val) :
    Except ε Ctx × List (String × String) × List Ctx :=
  match st with
  | (Except.error e, fe, tr) => (Except.error e, fe, tr)
  | (Except.ok tc, fe, tr) =>
      let scU := dictSet (dictSet sc key iv.2) (key ++ "_index") (Val.vInt iv.1)
      let r := exec fe tc scU
      (r.1, r.2.1, tr ++ r.2.2)

/-- `Stage.execute` (entity.py lines 241-252). With an empty `foreach`
the stage body `_execute` runs once; otherwise `self.foreach.popitem()`
removes and returns the LAST (most recently inserted) binding — a
destructive mutation of the stage's own `foreach` mapping — its source
expression is resolved through `extract_value_from_cntext`
(`folker/util/variable.py`, not under `src/`, abstracted as `extract`),
and the stage recursively executes itself once per enumerated value.
The result carries the execution outcome, the `foreach` mapping as
execution leaves it, and the ordered list of stage contexts the body
was invoked with (instrumentation only). `fuel` makes the recursion
structural; the `stageExecute` wrapper supplies `foreach.length`, which
is sufficient because every recursive level starts from a strictly
shorter mapping, so the fuel-exhausted branch coincides with the
empty-`foreach` one. -/
def stageExecuteFuel (extract : Ctx → Ctx → String → List Val)
    (body : Ctx → Ctx → Except ε Ctx) :
    Nat → List (String × String) → Ctx → Ctx →
    Except ε Ctx × List (String × String) × List Ctx
  | 0, fe, tc, sc => (body tc sc, fe, [sc])
  | fuel + 1, fe, tc, sc =>
      match fe.getLast? with
      | none => (body tc sc, fe, [sc])
      | some (key, src) =>
          (extract tc sc src).enum.foldl
            (foreachStep (stageExecuteFuel extract body fuel) key sc)
            (Except.ok tc, fe.dropLast, [])

/-- `Stage.execute` entry point: the recursion of entity.py lines
241-252 run with enough fuel for the stage's own `foreach`. -/
def stageExecute (extract : Ctx → Ctx → String → List Val)
    (body : Ctx → Ctx → Except ε Ctx)
    (fe : List (String × String)) (tc sc : Ctx) :
    Except ε Ctx × List (String × String) × List Ctx :=
  stageExecuteFuel extract body fe.length fe tc sc

/-- One iteration of the per-value loop of the specification's Foreach
Expander (no mutable binding state to thread). -/
def specStep (exec : Ctx → Ctx → Except ε Ctx × List Ctx)
    (key : String) (sc : Ctx)
    (st : Except ε Ctx × List Ctx) (iv : Nat × Val) :
    Except ε Ctx × List Ctx :=
  match st with
  | (Except.error e, tr) => (Except.error e, tr)
  | (Except.ok tc, tr) =>
      let scU := dictSet (dictSet sc key iv.2) (key ++ "_index") (Val.vInt iv.1)
      let r := exec tc scU
      (r.1, tr ++ r.2)

/-- The Foreach Expander as the specification words it (§4.3): take the
FIRST binding, resolve its source into an ordered sequence, and for
each `(index, value)` in order execute the stage body with the
REMAINING bindings (non-destructively), feeding the test context
returned by one iteration into the next; with no bindings left the body
runs once. Stated here so the source behaviour can be compared with it. -/
def specExpand (extract : Ctx → Ctx → String → List Val)
    (body : Ctx → Ctx → Except ε Ctx) :
    List (String × String) → Ctx → Ctx → Except ε Ctx × List Ctx
  | [], tc, sc => (body tc sc, [sc])
  | (key, src) :: rest, tc, sc =>
      (extract tc sc src).enum.foldl
        (specStep (specExpand extract body rest) key sc)
        (Except.ok tc, [])

end ForeachExec

/-! ### Test execution (`folker/model/entity.py`, lines 307-324) -/

section TestExec

variable {ε : Type}

/-- The `for stage in self.stages` loop inside the `try` block of
`Test.execute`: each stage reads the test context the previous stage
returned; the first raised error propagates. -/
def runStages : List (Ctx → Except ε Ctx) → Ctx → Except ε Ctx
  | [], tc => Except.ok tc
  | s :: rest, tc =>
      match s tc with
      | Except.ok tc2 => runStages rest tc2
      | Except.error e => Except.error e

/-- `Test.execute` (entity.py lines 307-324): a fresh, empty test
context is created; the stage loop runs inside a `try` whose two
`except` clauses (`SourceException`, then any `Exception`) both report
the error to the logging sink and return `False`; completion of every
stage returns `True`. No exception escapes. -/
def testExecute (stages : List (Ctx → Except ε Ctx)) : Bool :=
  match runStages stages [] with
  | Except.ok _ => true
  | Except.error _ => false

end TestExec

/-! ### Suite scheduling (`folker.py`, lines 10-55) -/

/-- One loaded test as the suite scheduler sees it: its name, its
`parallel` flag, and the boolean outcome its `Test.execute` run
produces (the test-runner level is embedded separately by
`testExecute`). -/
structure TestR where
  name : String
  parallel : Bool
  passes : Bool

/-- `execute_parallel_test` (folker.py lines 15-19): `Pool.map` returns
the `(result, name)` pairs in submission order, and the two
comprehensions keep the names of the passing and the failing tests, in
that order. -/
def executeParallelTest (tests : List TestR) : List String × List String :=
  let results := tests.map (fun t => (t.passes, t.name))
  (results.filterMap (fun r => if r.1 then some r.2 else none),
   results.filterMap (fun r => if r.1 then none else some r.2))

/-- `execute_sequential_tests` (folker.py lines 22-32): tests run one at
a time in declaration order, each appending its name to the success or
the failure accumulator. -/
def executeSequentialTests : List TestR → List String × List String
  | [] => ([], [])
  | t :: rest =>
      let res := executeSequentialTests rest
      if t.passes then (t.name :: res.1, res.2) else (res.1, t.name :: res.2)

/-- The module-level suite execution of `folker.py` lines 38-55: tests
are partitioned by their `parallel` flag, the parallel group runs
first, then the sequential group; `executed`, `success` and `failures`
accumulate in that order; after reporting the tallies to the logger,
`len(success) is not executed` (on these small interned integers, `≠`)
raises `TestSuiteResultException(failures)`, returned here as the
`Option` component. -/
def suiteRun (tests : List TestR) :
    (Nat × List String × List String) × Option (List String) :=
  let parallelTests := tests.filter (fun t => t.parallel)
  let sequentialTests := tests.filter (fun t => !t.parallel)
  let pres := executeParallelTest parallelTests
  let sres := executeSequentialTests sequentialTests
  let success := pres.1 ++ sres.1
  let failures := pres.2 ++ sres.2
  let executed := (pres.1.length + pres.2.length) + (sres.1.length + sres.2.length)
  ((executed, success, failures),
   if success.length ≠ executed then some failures else none)

/-! ## General lemmas about the dictionary embedding -/

theorem dictGet_dictSet {α : Type} (d : List (String × α)) (k k' : String) (v : α) :
    dictGet (dictSet d k v) k' = if k = k' then some v else dictGet d k' := by
  induction d with
  | nil =>
      by_cases h : k = k' <;> simp [dictGet, dictSet, h]
  | cons hd tl ih =>
      obtain ⟨k0, v0⟩ := hd
      by_cases h0 : k0 = k
      · subst h0
        by_cases h : k0 = k' <;> simp [dictGet, dictSet, h]
      · simp only [dictSet, if_neg h0]
        by_cases h : k0 = k'
        · simp only [dictGet, if_pos h]
          rw [if_neg (fun hc => h0 (h.trans hc.symm))]
        · simp [dictGet, h, ih]

theorem dictSet_of_get_eq {α : Type} {d : List (String × α)} {k : String} {v : α}
    (h : dictGet d k = some v) : dictSet d k v = d := by
  induction d with
  | nil => simp [dictGet] at h
  | cons hd tl ih =>
      obtain ⟨k0, v0⟩ := hd
      by_cases h0 : k0 = k
      · subst h0
        simp [dictGet] at h
        simp [dictSet, h]
      · simp [dictGet, h0] at h
        simp [dictSet, h0, ih h]

theorem dictSet_ne_nil {α : Type} (d : List (String × α)) (k : String) (v : α) :
    dictSet d k v ≠ [] := by
  cases d with
  | nil => simp [dictSet]
  | cons hd tl =>
      obtain ⟨k0, v0⟩ := hd
      by_cases h0 : k0 = k <;> simp [dictSet, h0]

theorem pyDictMerge_ne_nil {α : Type} {a : List (String × α)} (b : List (String × α))
    (h : a ≠ []) : pyDictMerge a b ≠ [] := by
  induction b generalizing a with
  | nil => simpa [pyDictMerge]
  | cons hd tl ih =>
      have hstep : pyDictMerge a (hd :: tl) = pyDictMerge (dictSet a hd.1 hd.2) tl := rfl
      rw [hstep]
      exact ih (dictSet_ne_nil a hd.1 hd.2)

theorem dictGet_pyDictMerge_not_mem {α : Type} {k : String} (a : List (String × α))
    {b : List (String × α)} (h : k ∉ b.map Prod.fst) :
    dictGet (pyDictMerge a b) k = dictGet a k := by
  induction b generalizing a with
  | nil => simp [pyDictMerge]
  | cons hd tl ih =>
      have h1 : ¬(k = hd.1 ∨ k ∈ tl.map Prod.fst) := by simpa using h
      obtain ⟨hk1, hk2⟩ := not_or.mp h1
      have hstep : pyDictMerge a (hd :: tl) = pyDictMerge (dictSet a hd.1 hd.2) tl := rfl
      rw [hstep, ih (dictSet a hd.1 hd.2) hk2, dictGet_dictSet,
        if_neg (fun hc => hk1 hc.symm)]

theorem dictGet_pyDictMerge_mem {α : Type} {k : String} {v : α} (a : List (String × α))
    {b : List (String × α)} (hnd : (b.map Prod.fst).Nodup) (hmem : (k, v) ∈ b) :
    dictGet (pyDictMerge a b) k = some v := by
  induction b generalizing a with
  | nil => simp at hmem
  | cons hd tl ih =>
      obtain ⟨k0, v0⟩ := hd
      have hstep : pyDictMerge a ((k0, v0) :: tl) = pyDictMerge (dictSet a k0 v0) tl := rfl
      simp only [List.map_cons, List.nodup_cons] at hnd
      rcases List.mem_cons.mp hmem with heq | htl
      · have hk : k = k0 := congrArg Prod.fst heq
        have hv : v = v0 := congrArg Prod.snd heq
        subst hk
        subst hv
        rw [hstep, dictGet_pyDictMerge_not_mem _ hnd.1, dictGet_dictSet, if_pos rfl]
      · rw [hstep]
        exact ih (dictSet a k0 v0) hnd.2 htl

theorem pyDictMerge_fixed {α : Type} {m b : List (String × α)}
    (h : ∀ p ∈ b, dictGet m p.1 = some p.2) : pyDictMerge m b = m := by
  induction b with
  | nil => rfl
  | cons hd tl ih =>
      have hstep : pyDictMerge m (hd :: tl) = pyDictMerge (dictSet m hd.1 hd.2) tl := rfl
      rw [hstep, dictSet_of_get_eq (h hd (List.mem_cons_self hd tl))]
      exact ih (fun p hp => h p (List.mem_cons_of_mem hd hp))

theorem pyDictMerge_idem {α : Type} (a : List (String × α)) {b : List (String × α)}
    (hnd : (b.map Prod.fst).Nodup) : pyDictMerge (pyDictMerge a b) b = pyDictMerge a b :=
  pyDictMerge_fixed (fun p hp => dictGet_pyDictMerge_mem a hnd (by simpa using hp))

/-! ## Suite scheduling lemmas (claim C3) -/

theorem executeParallelTest_eq (l : List TestR) :
    executeParallelTest l =
      ((l.filter (fun t => t.passes)).map TestR.name,
       (l.filter (fun t => !t.passes)).map TestR.name) := by
  induction l with
  | nil => rfl
  | cons t tl ih =>
      by_cases hp : t.passes <;>
        simp_all [executeParallelTest, List.filter_cons, hp]

theorem executeSequentialTests_eq (l : List TestR) :
    executeSequentialTests l =
      ((l.filter (fun t => t.passes)).map TestR.name,
       (l.filter (fun t => !t.passes)).map TestR.name) := by
  induction l with
  | nil => rfl
  | cons t tl ih =>
      by_cases hp : t.passes <;>
        simp [executeSequentialTests, List.filter_cons, hp, ih]

theorem length_filter_partition (l : List TestR) (p : TestR → Bool) :
    (l.filter p).length + (l.filter (fun t => !p t)).length = l.length := by
  induction l with
  | nil => rfl
  | cons t tl ih =>
      by_cases hp : p t <;> simp [List.filter_cons, hp] <;> omega

theorem raiseIff (s f : List String) (ex : Nat) (h : s.length + f.length = ex) :
    (if s.length ≠ ex then some f else none) = (if f.isEmpty then none else some f) := by
  by_cases hf : f = []
  · subst hf
    simp only [List.length_nil, Nat.add_zero] at h
    simp [h]
  · have hlen : f.length ≠ 0 := by simpa [List.length_eq_zero] using hf
    rw [if_pos (by omega), if_neg (by simpa [List.isEmpty_iff] using hf)]

/-- Claim C3 (amended): the suite scheduler reports `executed` equal to
the total number of tests run, `success` as the ordered list of passing
test names and `failures` as the ordered list of failing test names —
with the parallel group's results placed BEFORE the sequential group's,
since the parallel group runs first — and raises
`TestSuiteResultException` carrying `failures` exactly when `failures`
is non-empty (equivalently, when `len(success) != executed`, since
`success` and `failures` partition the executed tests). -/
theorem suiteRun_aggregates (tests : List TestR) :
    (suiteRun tests).1.1 = tests.length ∧
    (suiteRun tests).1.2.1 =
      (((tests.filter fun t => t.parallel).filter fun t => t.passes).map TestR.name ++
       ((tests.filter fun t => !t.parallel).filter fun t => t.passes).map TestR.name) ∧
    (suiteRun tests).1.2.2 =
      (((tests.filter fun t => t.parallel).filter fun t => !t.passes).map TestR.name ++
       ((tests.filter fun t => !t.parallel).filter fun t => !t.passes).map TestR.name) ∧
    (suiteRun tests).1.2.1.length + (suiteRun tests).1.2.2.length = (suiteRun tests).1.1 ∧
    (suiteRun tests).2 =
      (if (suiteRun tests).1.2.2.isEmpty then none else some (suiteRun tests).1.2.2) := by
  have hpar := length_filter_partition (tests.filter fun t => t.parallel) (fun t => t.passes)
  have hseq := length_filter_partition (tests.filter fun t => !t.parallel) (fun t => t.passes)
  have htot := length_filter_partition tests (fun t => t.parallel)
  refine ⟨?_, ?_, ?_, ?_, ?_⟩
  · simp only [suiteRun, executeParallelTest_eq, executeSequentialTests_eq,
      List.length_append, List.length_map]
    omega
  · simp only [suiteRun, executeParallelTest_eq, executeSequentialTests_eq]
  · simp only [suiteRun, executeParallelTest_eq, executeSequentialTests_eq]
  · simp only [suiteRun, executeParallelTest_eq, executeSequentialTests_eq,
      List.length_append, List.length_map]
    omega
  · simp only [suiteRun, executeParallelTest_eq, executeSequentialTests_eq]
    apply raiseIff
    simp only [List.length_append, List.length_map]
    omega

/-- Claim C3, counterexample to the claimed ordering: with 2 parallel
tests (one passing, one failing) and 1 passing sequential test the
aggregated `success` list is `[parallelPass, seq]` — the parallel
group's passing name comes first because the parallel group runs first
— not `[seq, parallelPass]` as the claim states (the rest of the
claimed outcome, `executed = 3`, `failures = [parallelFail]` and the
raised error, does hold). -/
theorem suiteRun_success_order_counterexample :
    suiteRun [⟨"parallelPass", true, true⟩, ⟨"parallelFail", true, false⟩,
              ⟨"seq", false, true⟩] =
      ((3, ["parallelPass", "seq"], ["parallelFail"]), some ["parallelFail"]) ∧
    (["parallelPass", "seq"] : List String) ≠ ["seq", "parallelPass"] :=
  ⟨rfl, by decide⟩

/-! ## Test runner lemmas (claim C8) -/

theorem runStages_append {ε : Type} (pre rest : List (Ctx → Except ε Ctx)) (tc : Ctx) :
    runStages (pre ++ rest) tc =
      (match runStages pre tc with
       | Except.ok tc2 => runStages rest tc2
       | Except.error e => Except.error e) := by
  induction pre generalizing tc with
  | nil => rfl
  | cons s tl ih =>
      cases h : s tc with
      | ok tc2 => simp [runStages, h, ih]
      | error e => simp [runStages, h]

/-- Claim C8: `Test.execute` runs the stages strictly in list order
against one fresh test context; if every stage completes the result is
`True`; the first stage that raises an error makes the result `False`,
and the result does not depend on the stages after the raising one (they
never run, so their actions are never invoked); by construction the
result is always a plain boolean — no exception escapes. -/
theorem testExecute_fail_fast {ε : Type} :
    (∀ stages : List (Ctx → Except ε Ctx),
      (∃ tcAll, runStages stages [] = Except.ok tcAll) → testExecute stages = true) ∧
    (∀ stages : List (Ctx → Except ε Ctx),
      testExecute stages = true ∨ testExecute stages = false) ∧
    (∀ (pre post : List (Ctx → Except ε Ctx)) (bad : Ctx → Except ε Ctx) (tc1 : Ctx) (e : ε),
      runStages pre [] = Except.ok tc1 → bad tc1 = Except.error e →
      testExecute (pre ++ bad :: post) = false ∧
      ∀ post2 : List (Ctx → Except ε Ctx), testExecute (pre ++ bad :: post2) = false) := by
  refine ⟨?_, ?_, ?_⟩
  · intro stages h
    obtain ⟨tcAll, hAll⟩ := h
    simp [testExecute, hAll]
  · intro stages
    cases h : runStages stages ([] : Ctx) with
    | ok tcAll => left; simp [testExecute, h]
    | error e => right; simp [testExecute, h]
  · intro pre post bad tc1 e hpre hbad
    have key : ∀ post2 : List (Ctx → Except ε Ctx),
        testExecute (pre ++ bad :: post2) = false := by
      intro post2
      have h1 : runStages (pre ++ bad :: post2) ([] : Ctx) = Except.error e := by
        rw [runStages_append, hpre]
        simp [runStages, hbad]
      simp [testExecute, h1]
    exact ⟨key post, key⟩

/-- Claim C8, witness: a concrete test with stages
`[A: writes a variable and passes, B: raises, C: would pass]` yields
`False`, and so does the same test with `C` removed (the outcome never
depends on the stages after the raising one). -/
theorem testExecute_fail_fast_witness :
    testExecute [fun tc => (Except.ok (dictSet tc "a" (Val.vInt 1)) : Except Unit Ctx),
                 fun _ => Except.error (), fun tc => Except.ok tc] = false ∧
    testExecute [fun tc => (Except.ok (dictSet tc "a" (Val.vInt 1)) : Except Unit Ctx),
                 fun _ => Except.error ()] = false := by
  have h := (@testExecute_fail_fast Unit).2.2
    [fun tc => Except.ok (dictSet tc "a" (Val.vInt 1))]
    [fun tc => Except.ok tc]
    (fun _ => Except.error ()) [("a", Val.vInt 1)] () rfl rfl
  exact ⟨h.1, h.2 []⟩

/-! ## Foreach expansion lemmas (claims C2 and C9) -/

theorem foreachLoop_preserves_nil {ε : Type} (extract : Ctx → Ctx → String → List Val)
    (body : Ctx → Ctx → Except ε Ctx) (k : String) (sc : Ctx) (l : List (Nat × Val)) :
    ∀ (res : Except ε Ctx) (tr : List Ctx),
      (l.foldl (foreachStep (stageExecuteFuel extract body 0) k sc) (res, [], tr)).2.1 = [] := by
  induction l with
  | nil => intro res tr; rfl
  | cons iv t ih =>
      intro res tr
      cases res with
      | error e => simpa [foreachStep] using ih (Except.error e) tr
      | ok tc => simpa [foreachStep, stageExecuteFuel] using ih _ _

theorem foreachLoop_single_spec {ε : Type} (extract : Ctx → Ctx → String → List Val)
    (body : Ctx → Ctx → Except ε Ctx) (k : String) (sc : Ctx) (l : List (Nat × Val)) :
    ∀ (res : Except ε Ctx) (tr : List Ctx),
      l.foldl (foreachStep (stageExecuteFuel extract body 0) k sc) (res, [], tr) =
        ((l.foldl (specStep (specExpand extract body []) k sc) (res, tr)).1, [],
         (l.foldl (specStep (specExpand extract body []) k sc) (res, tr)).2) := by
  induction l with
  | nil => intro res tr; rfl
  | cons iv t ih =>
      intro res tr
      cases res with
      | error e => simpa [foreachStep, specStep] using ih (Except.error e) tr
      | ok tc => simpa [foreachStep, specStep, stageExecuteFuel, specExpand] using ih _ _

/-- Claim C2 (amended): with no iteration bindings the stage pipeline
runs exactly once; with a single binding `(key, src)` the destructive
expansion of `Stage.execute` agrees exactly with the specification's
Foreach Expander (`specExpand`): the source expression is resolved to a
sequence of values and the body runs once per value, in order, with the
derived stage contexts `parent ∪ [brace]key: value_i, key_index: i[brace]`,
the test context returned by iteration `i` feeding iteration `i+1` —
but the binding is consumed: the stage's `foreach` mapping is left
empty. (With several bindings the expander takes the LAST binding, not
the first, and the in-place consumption makes later outer iterations
run without the inner bindings, so the nested behaviour diverges from
the claim — see the counterexample.) -/
theorem stageExecute_single_binding {ε : Type} (extract : Ctx → Ctx → String → List Val)
    (body : Ctx → Ctx → Except ε Ctx) (tc sc : Ctx) (k src : String) :
    stageExecute extract body [] tc sc = (body tc sc, [], [sc]) ∧
    (stageExecute extract body [(k, src)] tc sc).1 =
      (specExpand extract body [(k, src)] tc sc).1 ∧
    (stageExecute extract body [(k, src)] tc sc).2.2 =
      (specExpand extract body [(k, src)] tc sc).2 ∧
    (stageExecute extract body [(k, src)] tc sc).2.1 = [] := by
  have hunfold : stageExecute extract body [(k, src)] tc sc =
      (extract tc sc src).enum.foldl
        (foreachStep (stageExecuteFuel extract body 0) k sc) (Except.ok tc, [], []) := rfl
  have hspec : specExpand extract body [(k, src)] tc sc =
      (extract tc sc src).enum.foldl
        (specStep (specExpand extract body []) k sc) (Except.ok tc, []) := rfl
  have hcorr := foreachLoop_single_spec extract body k sc (extract tc sc src).enum
    (Except.ok tc) []
  refine ⟨rfl, ?_, ?_, ?_⟩
  · rw [hunfold, hspec, hcorr]
  · rw [hunfold, hspec, hcorr]
  · rw [hunfold, hcorr]

/-- Claim C2, counterexample for more than one binding: on the foreach
mapping `[(a, ea), (b, eb)]` (insertion order `a` then `b`) with `ea`
resolving to 2 values and `eb` to 2 values, the claim — take the FIRST
binding, iterate the remaining bindings inside — predicts 4 body
invocations with `a` outermost (the `specExpand` trace), but
`Stage.execute` pops the LAST binding `b` and destroys the mapping
while iterating, so the body runs only 3 times: both `a`-iterations
happen inside the first `b`-iteration only. -/
theorem stageExecute_nested_foreach_counterexample :
    (stageExecute
        (fun _ _ src => if src = "ea" then [Val.vInt 1, Val.vInt 2]
          else [Val.vInt 10, Val.vInt 20])
        (fun tc _ => (Except.ok tc : Except Unit Ctx))
        [("a", "ea"), ("b", "eb")] [] []).2.2 =
      [[("b", Val.vInt 10), ("b_index", Val.vInt 0), ("a", Val.vInt 1), ("a_index", Val.vInt 0)],
       [("b", Val.vInt 10), ("b_index", Val.vInt 0), ("a", Val.vInt 2), ("a_index", Val.vInt 1)],
       [("b", Val.vInt 20), ("b_index", Val.vInt 1)]] ∧
    (specExpand
        (fun _ _ src => if src = "ea" then [Val.vInt 1, Val.vInt 2]
          else [Val.vInt 10, Val.vInt 20])
        (fun tc _ => (Except.ok tc : Except Unit Ctx))
        [("a", "ea"), ("b", "eb")] [] []).2 =
      [[("a", Val.vInt 1), ("a_index", Val.vInt 0), ("b", Val.vInt 10), ("b_index", Val.vInt 0)],
       [("a", Val.vInt 1), ("a_index", Val.vInt 0), ("b", Val.vInt 20), ("b_index", Val.vInt 1)],
       [("a", Val.vInt 2), ("a_index", Val.vInt 1), ("b", Val.vInt 10), ("b_index", Val.vInt 0)],
       [("a", Val.vInt 2), ("a_index", Val.vInt 1), ("b", Val.vInt 20), ("b_index", Val.vInt 1)]] ∧
    ([[("b", Val.vInt 10), ("b_index", Val.vInt 0), ("a", Val.vInt 1), ("a_index", Val.vInt 0)],
      [("b", Val.vInt 10), ("b_index", Val.vInt 0), ("a", Val.vInt 2), ("a_index", Val.vInt 1)],
      [("b", Val.vInt 20), ("b_index", Val.vInt 1)]] : List Ctx) ≠
      [[("a", Val.vInt 1), ("a_index", Val.vInt 0), ("b", Val.vInt 10), ("b_index", Val.vInt 0)],
       [("a", Val.vInt 1), ("a_index", Val.vInt 0), ("b", Val.vInt 20), ("b_index", Val.vInt 1)],
       [("a", Val.vInt 2), ("a_index", Val.vInt 1), ("b", Val.vInt 10), ("b_index", Val.vInt 0)],
       [("a", Val.vInt 2), ("a_index", Val.vInt 1), ("b", Val.vInt 20), ("b_index", Val.vInt 1)]] := by
  refine ⟨rfl, rfl, ?_⟩
  intro h
  have hl := congrArg List.length h
  simp at hl

/-- Claim C9 (amended): executing a stage with no bindings leaves the
(empty) foreach mapping as it is and runs the body exactly once with
the parent stage context; executing a stage with a binding consumes it
— `popitem` empties the stage's own `foreach` mapping — so a second
execution of the same stage object does not repeat the iterations: it
runs the body exactly once, with no iteration variables bound. -/
theorem stageExecute_consumes_foreach {ε : Type} (extract : Ctx → Ctx → String → List Val)
    (body : Ctx → Ctx → Except ε Ctx) (tc sc : Ctx) (k src : String) :
    (stageExecute extract body [] tc sc).2.1 = [] ∧
    (stageExecute extract body [] tc sc).2.2 = [sc] ∧
    (stageExecute extract body [(k, src)] tc sc).2.1 = [] := by
  refine ⟨rfl, rfl, ?_⟩
  exact foreachLoop_preserves_nil extract body k sc (extract tc sc src).enum (Except.ok tc) []

/-- Claim C9, counterexample: a stage whose foreach mapping binds `x`
to a 2-value source executes its body twice but leaves its `foreach`
mapping EMPTY (`popitem` mutated the stage's own definition field), so
re-executing the same stage object runs the body once, not twice. -/
theorem stageExecute_foreach_mutated_counterexample :
    (stageExecute (fun _ _ _ => [Val.vInt 1, Val.vInt 2])
      (fun tc _ => (Except.ok tc : Except Unit Ctx)) [("x", "e")] [] []).2.1 = [] ∧
    ([] : List (String × String)) ≠ [("x", "e")] ∧
    (stageExecute (fun _ _ _ => [Val.vInt 1, Val.vInt 2])
      (fun tc _ => (Except.ok tc : Except Unit Ctx)) [("x", "e")] [] []).2.2.length = 2 ∧
    (stageExecute (fun _ _ _ => [Val.vInt 1, Val.vInt 2])
      (fun tc _ => (Except.ok tc : Except Unit Ctx)) [] [] []).2.2.length = 1 := by
  exact ⟨rfl, by decide, rfl, rfl⟩

/-! ## Enrichment lemmas (claims C4 and C5) -/

theorem actionFill_self (a : ActionM) : actionFill a a = a := by
  induction a with
  | nil => rfl
  | cons x t ih => cases x <;> simp [actionFill, List.zipWith_cons_cons] <;>
      simpa [actionFill] using ih

theorem actionFill_idem (a ta : ActionM) : actionFill (actionFill a ta) ta = actionFill a ta := by
  induction a generalizing ta with
  | nil => rfl
  | cons x t ih =>
      cases ta with
      | nil => rfl
      | cons y ty =>
          cases x with
          | some v => simpa [actionFill, List.zipWith_cons_cons] using ih ty
          | none =>
              cases y <;> simpa [actionFill, List.zipWith_cons_cons] using ih ty

theorem actionEnrichWith_idem {a act : ActionM} {t0 : Option ActionM}
    (h : actionEnrichWith a t0 = some act) : actionEnrichWith act t0 = some act := by
  cases t0 with
  | some ta =>
      simp only [actionEnrichWith, Option.some.injEq] at h ⊢
      rw [← h, actionFill_idem]
  | none =>
      simp only [actionEnrichWith] at h ⊢
      by_cases hall : a.all Option.isSome
      · rw [if_pos hall] at h
        have ha : a = act := by simpa using h
        subst ha
        rw [if_pos hall]
      · rw [if_neg hall] at h
        exact absurd h (by simp)

/-- Claim C4 (amended): `enrich` merges the stage's save entries with
the template's as the Python spread `[brace]**stage, **template[brace]`, in
which, on any key present in both, the TEMPLATE's value is the one kept
(the later spread wins); on keys only one side holds, that side's value
survives. The foreach bindings are merged the same way, but only when
the stage's own foreach mapping is non-empty; a stage with no bindings
of its own keeps an empty foreach mapping regardless of the template. -/
theorem stageEnrich_merge_spec (s t st : StageM)
    (h : stageEnrich s t = some st)
    (hndS : (t.save.map Prod.fst).Nodup)
    (hndF : (t.foreach.map Prod.fst).Nodup) :
    (∀ k v, (k, v) ∈ t.save → dictGet st.save k = some v) ∧
    (∀ k, k ∉ t.save.map Prod.fst → dictGet st.save k = dictGet s.save k) ∧
    (s.foreach = [] → st.foreach = []) ∧
    (s.foreach ≠ [] →
      (∀ k v, (k, v) ∈ t.foreach → dictGet st.foreach k = some v) ∧
      (∀ k, k ∉ t.foreach.map Prod.fst → dictGet st.foreach k = dictGet s.foreach k)) := by
  have hsave : st.save = pyDictMerge s.save t.save := by
    simp only [stageEnrich] at h
    split at h
    · exact absurd h (by simp)
    · cases h
      rfl
  have hforeach : st.foreach =
      (if s.foreach ≠ [] then pyDictMerge s.foreach t.foreach else s.foreach) := by
    simp only [stageEnrich] at h
    split at h
    · exact absurd h (by simp)
    · cases h
      rfl
  refine ⟨?_, ?_, ?_, ?_⟩
  · intro k v hm
    rw [hsave]
    exact dictGet_pyDictMerge_mem s.save hndS hm
  · intro k hm
    rw [hsave]
    exact dictGet_pyDictMerge_not_mem s.save hm
  · intro hf
    rw [hforeach, if_neg (by simp [hf])]
    exact hf
  · intro hf
    rw [hforeach, if_pos hf]
    exact ⟨fun k v hm => dictGet_pyDictMerge_mem s.foreach hndF hm,
           fun k hm => dictGet_pyDictMerge_not_mem s.foreach hm⟩

/-- Claim C4, witness: a stage saving `a=1, k=s` enriched with a
template saving `k=t, b=2` keeps the TEMPLATE's `t` on the collision
key `k`, the stage's `a` and the template's `b`; its foreach binding
`f1=sx` merged with the template's `f1=tx, f2=ty` keeps the template's
`tx`. -/
theorem stageEnrich_merge_spec_witness :
    dictGet (pyDictMerge [("a", "1"), ("k", "s")] [("k", "t"), ("b", "2")]) "k" = some "t" ∧
    dictGet (pyDictMerge [("a", "1"), ("k", "s")] [("k", "t"), ("b", "2")]) "a" = some "1" ∧
    dictGet (pyDictMerge [("f1", "sx")] [("f1", "tx"), ("f2", "ty")]) "f1" = some "tx" := by
  have H := stageEnrich_merge_spec
    ⟨some "n", [("f1", "sx")], some [], [("a", "1"), ("k", "s")], [], []⟩
    ⟨some "n", [("f1", "tx"), ("f2", "ty")], some [], [("k", "t"), ("b", "2")], [], []⟩
    ⟨some "n", pyDictMerge [("f1", "sx")] [("f1", "tx"), ("f2", "ty")], some [],
     pyDictMerge [("a", "1"), ("k", "s")] [("k", "t"), ("b", "2")], [], []⟩
    rfl (by decide) (by decide)
  exact ⟨H.1 "k" "t" (by decide), H.2.1 "a" (by decide),
         (H.2.2.2 (by decide)).1 "f1" "tx" (by decide)⟩

/-- Claim C4, counterexample: on a key present in both the stage's and
the template's save mapping (and likewise foreach), the surviving value
is the TEMPLATE's, not the stage's own as claimed; and with an empty
stage foreach the template's bindings are not merged at all. -/
theorem stageEnrich_stage_precedence_counterexample :
    stageEnrich ⟨some "n", [("k", "sf")], some [], [("k", "sv")], [], []⟩
                ⟨some "n", [("k", "tf")], some [], [("k", "tv")], [], []⟩ =
      some ⟨some "n", [("k", "tf")], some [], [("k", "tv")], [], []⟩ ∧
    ("tv" : String) ≠ "sv" ∧ ("tf" : String) ≠ "sf" ∧
    stageEnrich ⟨some "n", [], some [], [], [], []⟩
                ⟨some "n", [("k", "tf")], some [], [], [], []⟩ =
      some ⟨some "n", [], some [], [], [], []⟩ :=
  ⟨rfl, by decide, by decide, rfl⟩

/-- Claim C5 (amended): enrichment is idempotent on name, foreach,
action and save — merged fields keep their merged values — but the log
and assertion lists concatenate the template's entries on EVERY
invocation (their wrapper objects are always truthy, so the claimed
is-empty guard never skips them); re-enriching with the same template
is therefore a no-op exactly when the template's log and assertion
lists are empty, in which case `enrich (enrich s t) t = enrich s t`. -/
theorem stageEnrich_idem (s t s1 : StageM)
    (hlog : t.logs = []) (hasrt : t.assertions = [])
    (hndS : (t.save.map Prod.fst).Nodup) (hndF : (t.foreach.map Prod.fst).Nodup)
    (h : stageEnrich s t = some s1) :
    stageEnrich s1 t = some s1 := by
  simp only [stageEnrich] at h
  split at h
  · exact absurd h (by simp)
  · rename_i act heq
    cases h
    have hAct : actionEnrichWith act t.action = some act := by
      cases hsa : s.action with
      | some a =>
          rw [hsa] at heq
          have heq2 : actionEnrichWith a t.action = some act := heq
          exact actionEnrichWith_idem heq2
      | none =>
          rw [hsa] at heq
          have heq2 : t.action = some act := heq
          rw [heq2]
          simp [actionEnrichWith, actionFill_self]
    simp only [stageEnrich, hAct]
    have hname : (match (match s.name with | some n => some n | none => t.name) with
        | some n => some n | none => t.name) =
        (match s.name with | some n => some n | none => t.name) := by
      cases s.name <;> cases htn : t.name <;> simp [htn]
    have hforeach :
        (if (if s.foreach ≠ [] then pyDictMerge s.foreach t.foreach else s.foreach) ≠ []
         then pyDictMerge
            (if s.foreach ≠ [] then pyDictMerge s.foreach t.foreach else s.foreach) t.foreach
         else (if s.foreach ≠ [] then pyDictMerge s.foreach t.foreach else s.foreach)) =
        (if s.foreach ≠ [] then pyDictMerge s.foreach t.foreach else s.foreach) := by
      by_cases hf : s.foreach = []
      · simp [hf]
      · rw [if_pos hf, if_pos (pyDictMerge_ne_nil t.foreach hf), pyDictMerge_idem s.foreach hndF]
    rw [hname, hforeach, pyDictMerge_idem s.save hndS, hlog, hasrt]
    simp

/-- Claim C5, witness: a concrete enrichment (template with empty log
and assertion lists) whose repetition changes nothing. -/
theorem stageEnrich_idem_witness :
    stageEnrich
      ⟨some "m", [("f", "sx"), ("g", "tx")], some [some (Val.vInt 2), some (Val.vInt 1)],
       [("a", "1"), ("b", "2")], ["L"], ["A"]⟩
      ⟨some "m", [("g", "tx")], some [some (Val.vInt 2), some (Val.vInt 3)], [("b", "2")], [], []⟩ =
      some ⟨some "m", [("f", "sx"), ("g", "tx")], some [some (Val.vInt 2), some (Val.vInt 1)],
            [("a", "1"), ("b", "2")], ["L"], ["A"]⟩ :=
  stageEnrich_idem
    ⟨none, [("f", "sx")], some [none, some (Val.vInt 1)], [("a", "1")], ["L"], ["A"]⟩
    ⟨some "m", [("g", "tx")], some [some (Val.vInt 2), some (Val.vInt 3)], [("b", "2")], [], []⟩
    ⟨some "m", [("f", "sx"), ("g", "tx")], some [some (Val.vInt 2), some (Val.vInt 1)],
     [("a", "1"), ("b", "2")], ["L"], ["A"]⟩
    rfl rfl (by decide) (by decide) rfl

/-- Claim C5, counterexample: enriching twice with a template whose log
list is non-empty appends the template's log entries again — enrichment
is not idempotent on the log (and likewise assertion) lists. -/
theorem stageEnrich_not_idempotent_counterexample :
    stageEnrich ⟨some "n", [], some [], [], [], []⟩ ⟨some "n", [], some [], [], ["x"], []⟩ =
      some ⟨some "n", [], some [], [], ["x"], []⟩ ∧
    stageEnrich ⟨some "n", [], some [], [], ["x"], []⟩ ⟨some "n", [], some [], [], ["x"], []⟩ =
      some ⟨some "n", [], some [], [], ["x", "x"], []⟩ ∧
    (⟨some "n", [], some [], [], ["x", "x"], []⟩ : StageM) ≠
      ⟨some "n", [], some [], [], ["x"], []⟩ := by
  refine ⟨rfl, rfl, ?_⟩
  intro h
  have hl := congrArg StageM.logs h
  simp at hl

/-! ## Save step lemmas (claims C6 and C10) -/

theorem resolveVariable_single (tc : Ctx) (k : String) (v : Val)
    (h : (pySplitDot k).length = 1) :
    resolveVariable tc k v = Except.ok (dictSet tc k v) := by
  cases hsplit : pySplitDot k with
  | nil => rw [hsplit] at h; simp at h
  | cons x rest =>
      cases rest with
      | nil => simp [resolveVariable, hsplit]
      | cons y rest2 => rw [hsplit] at h; simp at h

/-- Claim C10: the save step's target variable path is itself first
passed through variable substitution (`replace_variables` against the
test and stage contexts) before the write, so a save key containing a
variable reference is written under the RESOLVED path, not the literal
key text: when the resolved key is a plain (dot-free) name and the
expression evaluates, the value is stored under the resolved key, and
every other key — in particular the literal key text, when it differs —
is untouched. -/
theorem saveExecute_resolves_target_path
    (evalE : Ctx → Ctx → String → Except Unit Val) (tc sc : Ctx) (k expr : String) (v : Val)
    (hk : (pySplitDot (replaceVariables tc sc k)).length = 1)
    (he : evalE tc sc expr = Except.ok v) :
    saveExecute evalE [(k, expr)] tc sc =
      Except.ok (dictSet tc (replaceVariables tc sc k) v, sc) ∧
    dictGet (dictSet tc (replaceVariables tc sc k) v) (replaceVariables tc sc k) = some v ∧
    ∀ k2, k2 ≠ replaceVariables tc sc k →
      dictGet (dictSet tc (replaceVariables tc sc k) v) k2 = dictGet tc k2 := by
  refine ⟨?_, ?_, ?_⟩
  · simp only [saveExecute, he, resolveVariable_single tc (replaceVariables tc sc k) v hk]
  · rw [dictGet_dictSet, if_pos rfl]
  · intro k2 hne
    rw [dictGet_dictSet, if_neg (fun hc => hne hc.symm)]

/-- Claim C10, witness: the save key `$[brace]name[brace]` with the
stage context binding `name = "real"` writes under the resolved key
`real`; the literal key text is absent from the resulting test
context. -/
theorem saveExecute_resolves_target_path_witness :
    saveExecute (fun _ _ _ => Except.ok (Val.vInt 5)) [("$\x7bname\x7d", "e")]
      [] [("name", Val.vStr "real")] =
      Except.ok ([("real", Val.vInt 5)], [("name", Val.vStr "real")]) ∧
    dictGet ([("real", Val.vInt 5)] : Ctx) "real" = some (Val.vInt 5) ∧
    dictGet ([("real", Val.vInt 5)] : Ctx) "$\x7bname\x7d" = none := by
  have H := saveExecute_resolves_target_path (fun _ _ _ => Except.ok (Val.vInt 5))
    [] [("name", Val.vStr "real")] "$\x7bname\x7d" "e" (Val.vInt 5) rfl rfl
  exact ⟨H.1, H.2.1, H.2.2 "$\x7bname\x7d" (by decide)⟩

/-- Claim C6 (amended): when evaluating a save entry's expression fails
for any reason, the evaluation failure never propagates — the stored
value falls back to plain resolution of the expression as literal
templated text, but that fallback resolves against the STAGE CONTEXT
ONLY: the source passes an empty test context to the fallback
(`replace_variables(test_context=[brace][brace], stage_context=..., text=saving)`),
so variables that live only in the test context are not substituted in
the fallback. -/
theorem saveExecute_eval_fallback
    (evalE : Ctx → Ctx → String → Except Unit Val) (tc sc : Ctx) (k expr : String)
    (hk : (pySplitDot (replaceVariables tc sc k)).length = 1)
    (he : evalE tc sc expr = Except.error ()) :
    saveExecute evalE [(k, expr)] tc sc =
      Except.ok (dictSet tc (replaceVariables tc sc k)
        (Val.vStr (replaceVariables [] sc expr)), sc) := by
  simp only [saveExecute, he,
    resolveVariable_single tc (replaceVariables tc sc k)
      (Val.vStr (replaceVariables [] sc expr)) hk]

/-- Claim C6, witness: with an always-failing evaluator and an empty
stage context, the stored fallback for `$[brace]x[brace]` is the
unresolved placeholder itself — and no error is raised. -/
theorem saveExecute_eval_fallback_witness :
    saveExecute (fun _ _ _ => Except.error ()) [("k", "$\x7bx\x7d")] [("x", Val.vInt 1)] [] =
      Except.ok ([("x", Val.vInt 1), ("k", Val.vStr "$\x7bx\x7d")], []) :=
  saveExecute_eval_fallback (fun _ _ _ => Except.error ())
    [("x", Val.vInt 1)] [] "k" "$\x7bx\x7d" rfl rfl

/-- Claim C6, counterexample to the claimed lookup order: the
expression `$[brace]x[brace]` with `x = 1` in the TEST context and an
empty stage context falls back, under the source's empty-test-context
call, to the unresolved placeholder — whereas plain resolution with
stage-then-test lookup (what the claim describes) would store `"1"`. -/
theorem saveExecute_fallback_counterexample :
    saveExecute (fun _ _ _ => Except.error ()) [("k", "$\x7bx\x7d")] [("x", Val.vInt 1)] [] =
      Except.ok ([("x", Val.vInt 1), ("k", Val.vStr "$\x7bx\x7d")], []) ∧
    replaceVariables [("x", Val.vInt 1)] [] "$\x7bx\x7d" = "1" ∧
    Val.vStr "$\x7bx\x7d" ≠ Val.vStr "1" := by
  refine ⟨rfl, rfl, ?_⟩
  intro h
  injection h with h2
  exact absurd h2 (by decide)

/-! ## Assertion step lemmas (claim C1) -/

theorem assertionsLoop_all_bool (evalE : Ctx → Ctx → String → Except Unit Val)
    (tc sc : Ctx) (f : String → Bool) :
    ∀ (l : List String) (ex su : Nat) (fa : List String),
      (∀ a ∈ l, evalE tc sc a = Except.ok (Val.vBool (f a))) →
      assertionsLoop evalE tc sc l ex su fa =
        (if su + l.countP (fun a => f a) ≠ ex + l.length
         then Except.error (AssertErr.testFail (fa ++ l.filter (fun a => !f a)))
         else Except.ok (tc, sc)) := by
  intro l
  induction l with
  | nil =>
      intro ex su fa _
      simp [assertionsLoop]
  | cons a t ih =>
      intro ex su fa h
      have ha := h a (List.mem_cons_self a t)
      have ht : ∀ x ∈ t, evalE tc sc x = Except.ok (Val.vBool (f x)) :=
        fun x hx => h x (List.mem_cons_of_mem a hx)
      cases hfa : f a with
      | true =>
          rw [hfa] at ha
          simp only [assertionsLoop, assertIndividual, ha]
          rw [ih (ex + 1) (su + 1) fa ht]
          have hcount : List.countP (fun x => f x) (a :: t) =
              List.countP (fun x => f x) t + 1 := by
            simp [List.countP_cons, hfa]
          have hfilt : List.filter (fun x => !f x) (a :: t) =
              List.filter (fun x => !f x) t := by
            simp [List.filter_cons, hfa]
          rw [hcount, hfilt, List.length_cons]
          refine if_congr ?_ rfl rfl
          constructor <;> intro hc <;> omega
      | false =>
          rw [hfa] at ha
          simp only [assertionsLoop, assertIndividual, ha]
          rw [ih (ex + 1) su (fa ++ [a]) ht]
          have hcount : List.countP (fun x => f x) (a :: t) =
              List.countP (fun x => f x) t := by
            simp [List.countP_cons, hfa]
          have hfilt : List.filter (fun x => !f x) (a :: t) =
              a :: List.filter (fun x => !f x) t := by
            simp [List.filter_cons, hfa]
          rw [hcount, hfilt, List.length_cons]
          rw [show (fa ++ [a]) ++ List.filter (fun x => !f x) t =
              fa ++ a :: List.filter (fun x => !f x) t by simp]
          refine if_congr ?_ rfl rfl
          constructor <;> intro hc <;> omega

theorem assertionsLoop_prefix (evalE : Ctx → Ctx → String → Except Unit Val) (tc sc : Ctx) :
    ∀ (pre rest : List String) (ex su : Nat) (fa : List String),
      (∀ x ∈ pre, ∃ b, evalE tc sc x = Except.ok (Val.vBool b)) →
      ∃ ex2 su2 fa2, assertionsLoop evalE tc sc (pre ++ rest) ex su fa =
        assertionsLoop evalE tc sc rest ex2 su2 fa2 := by
  intro pre
  induction pre with
  | nil => exact fun rest ex su fa _ => ⟨ex, su, fa, rfl⟩
  | cons x t ih =>
      intro rest ex su fa h
      obtain ⟨b, hb⟩ := h x (List.mem_cons_self x t)
      have ht : ∀ y ∈ t, ∃ b2, evalE tc sc y = Except.ok (Val.vBool b2) :=
        fun y hy => h y (List.mem_cons_of_mem x hy)
      cases b with
      | true =>
          simp only [List.cons_append, assertionsLoop, assertIndividual, hb]
          exact ih rest (ex + 1) (su + 1) fa ht
      | false =>
          simp only [List.cons_append, assertionsLoop, assertIndividual, hb]
          exact ih rest (ex + 1) su (fa ++ [x]) ht

/-- Claim C1: the assertions step evaluates the assertions in list
order. If the first problematic assertion fails to evaluate, the step
raises `UnresolvableAssertionException` for that assertion immediately
(the rest never run); if it evaluates to a non-boolean value, it raises
`MalformedAssertionException` immediately. When every assertion
evaluates to a boolean, a false result does not stop evaluation: after
the whole list has been evaluated the step raises `TestFailException`
carrying exactly the false assertions' texts, in order, if and only if
at least one assertion was false. -/
theorem assertionsExecute_spec (evalE : Ctx → Ctx → String → Except Unit Val)
    (tc sc : Ctx) (asserts : List String) :
    (∀ (pre post : List String) (a : String),
        asserts = pre ++ a :: post →
        (∀ x ∈ pre, ∃ b, evalE tc sc x = Except.ok (Val.vBool b)) →
        evalE tc sc a = Except.error () →
        assertionsExecute evalE asserts tc sc =
          Except.error (AssertErr.unresolvableAssertion a)) ∧
    (∀ (pre post : List String) (a : String) (v : Val),
        asserts = pre ++ a :: post →
        (∀ x ∈ pre, ∃ b, evalE tc sc x = Except.ok (Val.vBool b)) →
        evalE tc sc a = Except.ok v →
        (∀ b, v ≠ Val.vBool b) →
        assertionsExecute evalE asserts tc sc =
          Except.error (AssertErr.malformedAssertion a)) ∧
    (∀ f : String → Bool,
        (∀ x ∈ asserts, evalE tc sc x = Except.ok (Val.vBool (f x))) →
        assertionsExecute evalE asserts tc sc =
          (if asserts.filter (fun a => !f a) = []
           then Except.ok (tc, sc)
           else Except.error (AssertErr.testFail (asserts.filter (fun a => !f a))))) := by
  refine ⟨?_, ?_, ?_⟩
  · intro pre post a hsplit hpre ha
    subst hsplit
    have hne : ((pre ++ a :: post).isEmpty) = false := by
      cases pre <;> simp
    simp only [assertionsExecute, hne, Bool.false_eq_true, if_neg, ite_false]
    obtain ⟨ex2, su2, fa2, hloop⟩ := assertionsLoop_prefix evalE tc sc pre (a :: post) 0 0 [] hpre
    rw [hloop]
    simp [assertionsLoop, assertIndividual, ha]
  · intro pre post a v hsplit hpre ha hv
    subst hsplit
    have hne : ((pre ++ a :: post).isEmpty) = false := by
      cases pre <;> simp
    simp only [assertionsExecute, hne, Bool.false_eq_true, if_neg, ite_false]
    obtain ⟨ex2, su2, fa2, hloop⟩ := assertionsLoop_prefix evalE tc sc pre (a :: post) 0 0 [] hpre
    rw [hloop]
    cases v with
    | vBool b => exact absurd rfl (hv b)
    | vInt n => simp [assertionsLoop, assertIndividual, ha]
    | vStr s => simp [assertionsLoop, assertIndividual, ha]
    | vList l => simp [assertionsLoop, assertIndividual, ha]
    | vDict d => simp [assertionsLoop, assertIndividual, ha]
  · intro f hall
    cases hasserts : asserts with
    | nil => simp [assertionsExecute]
    | cons a0 t0 =>
        rw [← hasserts]
        have hne : asserts.isEmpty = false := by rw [hasserts]; simp
        simp only [assertionsExecute, hne, Bool.false_eq_true, if_neg, ite_false]
        rw [assertionsLoop_all_bool evalE tc sc f asserts 0 0 [] hall]
        by_cases hgood : ∀ x ∈ asserts, f x = true
        · have hcount : asserts.countP (fun a => f a) = asserts.length := by
            rw [List.countP_eq_length]
            intro x hx
            simpa using hgood x hx
          have hfilter : asserts.filter (fun a => !f a) = [] := by
            rw [List.filter_eq_nil_iff]
            intro x hx
            simp [hgood x hx]
          rw [hfilter]
          simp [hcount]
        · have hcount : asserts.countP (fun a => f a) ≠ asserts.length := by
            intro hc
            exact hgood (fun x hx => by simpa using List.countP_eq_length.mp hc x hx)
          have hle := List.countP_le_length (p := fun a => f a) (l := asserts)
          have hfilter : asserts.filter (fun a => !f a) ≠ [] := by
            intro hc
            apply hgood
            intro x hx
            have := List.filter_eq_nil_iff.mp hc x hx
            simpa using this
          rw [if_pos (by omega), if_neg hfilter]
          simp

/-- Claim C1, witness: with an evaluator mapping `T ↦ True`,
`F ↦ False`, `M ↦ 3` and everything else to an evaluation failure:
`[T, U, F]` raises Unresolvable for `U` (the following `F` is skipped);
`[T, M, F]` raises Malformed for `M`; `[T, F, T, F]` evaluates the whole
list and raises the assertion failure carrying `[F, F]`; `[T, T]`
passes. -/
theorem assertionsExecute_spec_witness :
    assertionsExecute
        (fun _ _ s => if s = "T" then Except.ok (Val.vBool true)
          else if s = "F" then Except.ok (Val.vBool false)
          else if s = "M" then Except.ok (Val.vInt 3) else Except.error ())
        ["T", "U", "F"] [] [] = Except.error (AssertErr.unresolvableAssertion "U") ∧
    assertionsExecute
        (fun _ _ s => if s = "T" then Except.ok (Val.vBool true)
          else if s = "F" then Except.ok (Val.vBool false)
          else if s = "M" then Except.ok (Val.vInt 3) else Except.error ())
        ["T", "M", "F"] [] [] = Except.error (AssertErr.malformedAssertion "M") ∧
    assertionsExecute
        (fun _ _ s => if s = "T" then Except.ok (Val.vBool true)
          else if s = "F" then Except.ok (Val.vBool false)
          else if s = "M" then Except.ok (Val.vInt 3) else Except.error ())
        ["T", "F", "T", "F"] [] [] = Except.error (AssertErr.testFail ["F", "F"]) ∧
    assertionsExecute
        (fun _ _ s => if s = "T" then Except.ok (Val.vBool true)
          else if s = "F" then Except.ok (Val.vBool false)
          else if s = "M" then Except.ok (Val.vInt 3) else Except.error ())
        ["T", "T"] [] [] = Except.ok ([], []) := by
  refine ⟨?_, ?_, ?_, ?_⟩
  · exact (assertionsExecute_spec
        (fun _ _ s => if s = "T" then Except.ok (Val.vBool true)
          else if s = "F" then Except.ok (Val.vBool false)
          else if s = "M" then Except.ok (Val.vInt 3) else Except.error ())
        [] [] ["T", "U", "F"]).1 ["T"] ["F"] "U" rfl
      (by intro x hx; simp at hx; subst hx; exact ⟨true, rfl⟩) rfl
  · exact (assertionsExecute_spec
        (fun _ _ s => if s = "T" then Except.ok (Val.vBool true)
          else if s = "F" then Except.ok (Val.vBool false)
          else if s = "M" then Except.ok (Val.vInt 3) else Except.error ())
        [] [] ["T", "M", "F"]).2.1 ["T"] ["F"] "M" (Val.vInt 3) rfl
      (by intro x hx; simp at hx; subst hx; exact ⟨true, rfl⟩) rfl
      (fun b h => Val.noConfusion h)
  · have H := (assertionsExecute_spec
        (fun _ _ s => if s = "T" then Except.ok (Val.vBool true)
          else if s = "F" then Except.ok (Val.vBool false)
          else if s = "M" then Except.ok (Val.vInt 3) else Except.error ())
        [] [] ["T", "F", "T", "F"]).2.2 (fun s => s == "T")
      (by intro x hx; simp at hx; rcases hx with rfl | rfl | rfl | rfl <;> rfl)
    exact H.trans rfl
  · have H := (assertionsExecute_spec
        (fun _ _ s => if s = "T" then Except.ok (Val.vBool true)
          else if s = "F" then Except.ok (Val.vBool false)
          else if s = "M" then Except.ok (Val.vInt 3) else Except.error ())
        [] [] ["T", "T"]).2.2 (fun s => s == "T")
      (by intro x hx; simp at hx; subst hx; rfl)
    exact H.trans rfl

/-! ## Nested-save merge lemmas (claim C7) -/

theorem mergeEntriesFuel_nil (f : Nat) (s : List (String × Val)) :
    mergeEntriesFuel f s [] = s := by
  cases f <;> rfl

theorem mergeEntriesFuel_congr :
    ∀ (f g : Nat) (s nd : List (String × Val)),
      valEntriesSize nd < f → valEntriesSize nd < g →
      mergeEntriesFuel f s nd = mergeEntriesFuel g s nd := by
  intro f
  induction f with
  | zero => intro g s nd hf; omega
  | succ f ih =>
      intro g s nd hf hg
      cases g with
      | zero => omega
      | succ g =>
          cases nd with
          | nil => rfl
          | cons hd rest =>
              obtain ⟨k, v⟩ := hd
              have hsz : valEntriesSize ((k, v) :: rest) = 1 + valSize v + valEntriesSize rest :=
                rfl
              cases v with
              | vDict nv =>
                  have hnv : valSize (Val.vDict nv) = 1 + valEntriesSize nv := rfl
                  simp only [mergeEntriesFuel]
                  cases hget : dictGet s k with
                  | none =>
                      exact ih g (dictSet s k (Val.vDict nv)) rest (by omega) (by omega)
                  | some w =>
                      cases w with
                      | vDict od =>
                          have h1 : mergeEntriesFuel f od nv = mergeEntriesFuel g od nv :=
                            ih g od nv (by omega) (by omega)
                          have h2 : mergeEntriesFuel f
                                (dictSet s k (Val.vDict (mergeEntriesFuel f od nv))) rest =
                              mergeEntriesFuel g
                                (dictSet s k (Val.vDict (mergeEntriesFuel g od nv))) rest := by
                            rw [h1]
                            exact ih g (dictSet s k (Val.vDict (mergeEntriesFuel g od nv)))
                              rest (by omega) (by omega)
                          exact h2
                      | vInt n =>
                          exact ih g (dictSet s k (Val.vDict nv)) rest (by omega) (by omega)
                      | vStr s2 =>
                          exact ih g (dictSet s k (Val.vDict nv)) rest (by omega) (by omega)
                      | vBool b =>
                          exact ih g (dictSet s k (Val.vDict nv)) rest (by omega) (by omega)
                      | vList l =>
                          exact ih g (dictSet s k (Val.vDict nv)) rest (by omega) (by omega)
              | vInt n =>
                  simp only [mergeEntriesFuel]
                  exact ih g (dictSet s k (Val.vInt n)) rest (by omega) (by omega)
              | vStr s2 =>
                  simp only [mergeEntriesFuel]
                  exact ih g (dictSet s k (Val.vStr s2)) rest (by omega) (by omega)
              | vBool b =>
                  simp only [mergeEntriesFuel]
                  exact ih g (dictSet s k (Val.vBool b)) rest (by omega) (by omega)
              | vList l =>
                  simp only [mergeEntriesFuel]
                  exact ih g (dictSet s k (Val.vList l)) rest (by omega) (by omega)

theorem mergeEntries_single_overwrite (s : List (String × Val)) (p : String) (w : Val)
    (h : ∀ od, dictGet s p ≠ some (Val.vDict od)) :
    mergeEntries s [(p, w)] = dictSet s p w := by
  cases w with
  | vDict nv =>
      simp only [mergeEntries, valEntriesSize, mergeEntriesFuel]
      cases hget : dictGet s p with
      | none => exact mergeEntriesFuel_nil _ _
      | some w0 =>
          cases w0 with
          | vDict od => exact absurd hget (h od)
          | vInt n => exact mergeEntriesFuel_nil _ _
          | vStr s2 => exact mergeEntriesFuel_nil _ _
          | vBool b => exact mergeEntriesFuel_nil _ _
          | vList l => exact mergeEntriesFuel_nil _ _
  | vInt n =>
      simp only [mergeEntries, valEntriesSize, mergeEntriesFuel]
      try exact mergeEntriesFuel_nil _ _
  | vStr s2 =>
      simp only [mergeEntries, valEntriesSize, mergeEntriesFuel]
      try exact mergeEntriesFuel_nil _ _
  | vBool b =>
      simp only [mergeEntries, valEntriesSize, mergeEntriesFuel]
      try exact mergeEntriesFuel_nil _ _
  | vList l =>
      simp only [mergeEntries, valEntriesSize, mergeEntriesFuel]
      try exact mergeEntriesFuel_nil _ _

theorem lookupPathVal_buildNested : ∀ (rest : List String) (v : Val), rest ≠ [] →
    lookupPathVal (Val.vDict (buildNested rest v)) rest = some v := by
  intro rest
  induction rest with
  | nil => intro v h; exact absurd rfl h
  | cons k t ih =>
      intro v _
      cases t with
      | nil => simp [buildNested, lookupPathVal, dictGet]
      | cons k2 t2 =>
          have hne : k2 :: t2 ≠ [] := by simp
          simp only [buildNested, lookupPathVal, dictGet, if_pos rfl]
          exact ih v hne

theorem mergeDictionaries_dict_single (d : List (String × Val)) (k : String) (v : Val)
    (h : ∀ od, dictGet d k ≠ some (Val.vDict od)) :
    mergeDictionaries (Val.vDict d) [(k, v)] = Except.ok (Val.vDict (dictSet d k v)) := by
  simp only [mergeDictionaries, List.isEmpty_cons, Bool.false_eq_true, if_neg, ite_false]
  rw [mergeEntries_single_overwrite d k v h]

theorem mergeDictionaries_empty_nested (k1 : String) (restk : List String) (v : Val) :
    mergeDictionaries (Val.vDict []) (buildNested (k1 :: restk) v) =
      Except.ok (Val.vDict (buildNested (k1 :: restk) v)) := by
  have hget : ∀ od, dictGet ([] : List (String × Val)) k1 ≠ some (Val.vDict od) := by
    intro od hc
    simp [dictGet] at hc
  cases restk with
  | nil =>
      rw [show buildNested [k1] v = [(k1, v)] from rfl]
      rw [mergeDictionaries_dict_single [] k1 v hget]
      rfl
  | cons k2 t2 =>
      rw [show buildNested (k1 :: k2 :: t2) v =
        [(k1, Val.vDict (buildNested (k2 :: t2) v))] from rfl]
      rw [mergeDictionaries_dict_single [] k1 (Val.vDict (buildNested (k2 :: t2) v)) hget]
      rfl

/-- Claim C7 (amended): writing a dotted save path into the test
context creates intermediate mappings as needed and merges with an
existing mapping at the root (a key whose old and new values are both
mappings is merged recursively; a non-mapping old value at an inner
level is overwritten by the new leaf); applying saves `a.b = 1` then
`a.c = 2` to an empty test context yields `[brace]a: [brace]b: 1,
c: 2[brace][brace]`. However, when the EXISTING value at the ROOT key
is itself not a mapping, the write does not overwrite it — it raises a
`TypeError` (see the counterexample). -/
theorem resolveVariable_merge_spec :
    (resolveVariable [] "a.b" (Val.vInt 1) =
       Except.ok [("a", Val.vDict [("b", Val.vInt 1)])] ∧
     resolveVariable [("a", Val.vDict [("b", Val.vInt 1)])] "a.c" (Val.vInt 2) =
       Except.ok [("a", Val.vDict [("b", Val.vInt 1), ("c", Val.vInt 2)])]) ∧
    (∀ (tc : Ctx) (varName root k1 : String) (restk : List String) (v : Val),
        pySplitDot varName = root :: k1 :: restk →
        dictGet tc root = none →
        resolveVariable tc varName v =
          Except.ok (dictSet tc root (Val.vDict (buildNested (k1 :: restk) v))) ∧
        lookupCtxPath (dictSet tc root (Val.vDict (buildNested (k1 :: restk) v)))
          (root :: k1 :: restk) = some v) ∧
    (∀ (tc : Ctx) (varName root k : String) (d : List (String × Val)) (v : Val),
        pySplitDot varName = [root, k] →
        dictGet tc root = some (Val.vDict d) →
        dictGet d k = none →
        resolveVariable tc varName v =
          Except.ok (dictSet tc root (Val.vDict (dictSet d k v)))) ∧
    (∀ (tc : Ctx) (varName root k : String) (d : List (String × Val)) (w v : Val),
        pySplitDot varName = [root, k] →
        dictGet tc root = some (Val.vDict d) →
        dictGet d k = some w →
        (∀ e, w ≠ Val.vDict e) →
        resolveVariable tc varName v =
          Except.ok (dictSet tc root (Val.vDict (dictSet d k v)))) ∧
    resolveVariable [("a", Val.vDict [("b", Val.vDict [("d", Val.vInt 2)])])] "a.b.c"
        (Val.vInt 1) =
      Except.ok [("a", Val.vDict [("b", Val.vDict [("d", Val.vInt 2), ("c", Val.vInt 1)])])] := by
  refine ⟨⟨rfl, rfl⟩, ?_, ?_, ?_, rfl⟩
  · intro tc varName root k1 restk v hsplit hget
    constructor
    · simp only [resolveVariable, hsplit, hget, Option.getD_none,
        mergeDictionaries_empty_nested]
    · rw [lookupCtxPath, dictGet_dictSet, if_pos rfl]
      exact lookupPathVal_buildNested (k1 :: restk) v (by simp)
  · intro tc varName root k d v hsplit hget hk
    have hnd : ∀ od, dictGet d k ≠ some (Val.vDict od) := by
      intro od hc
      rw [hk] at hc
      exact Option.noConfusion hc
    simp only [resolveVariable, hsplit, hget, Option.getD_some]
    rw [show buildNested [k] v = [(k, v)] from rfl,
      mergeDictionaries_dict_single d k v hnd]
  · intro tc varName root k d w v hsplit hget hk hw
    have hnd : ∀ od, dictGet d k ≠ some (Val.vDict od) := by
      intro od hc
      rw [hk] at hc
      exact hw od (Option.some.inj hc)
    simp only [resolveVariable, hsplit, hget, Option.getD_some]
    rw [show buildNested [k] v = [(k, v)] from rfl,
      mergeDictionaries_dict_single d k v hnd]

/-- Claim C7, witness: a fresh root creates the whole nested path
(`a.b.c = 7` over a context holding only `z`), the created value is
readable back at the full path; a two-segment write into an existing
mapping merges (existing key `b` preserved when writing `a.c`); a
non-mapping INNER leaf (`a.b = 5`) is overwritten by a new value. -/
theorem resolveVariable_merge_spec_witness :
    resolveVariable [("z", Val.vInt 0)] "a.b.c" (Val.vInt 7) =
      Except.ok [("z", Val.vInt 0),
        ("a", Val.vDict [("b", Val.vDict [("c", Val.vInt 7)])])] ∧
    lookupCtxPath [("z", Val.vInt 0),
        ("a", Val.vDict [("b", Val.vDict [("c", Val.vInt 7)])])] ["a", "b", "c"] =
      some (Val.vInt 7) ∧
    resolveVariable [("a", Val.vDict [("b", Val.vInt 1)])] "a.c" (Val.vInt 2) =
      Except.ok [("a", Val.vDict [("b", Val.vInt 1), ("c", Val.vInt 2)])] ∧
    resolveVariable [("a", Val.vDict [("b", Val.vInt 5)])] "a.b" (Val.vStr "x") =
      Except.ok [("a", Val.vDict [("b", Val.vStr "x")])] := by
  have H2 := resolveVariable_merge_spec.2.1 [("z", Val.vInt 0)] "a.b.c" "a" "b" ["c"]
    (Val.vInt 7) rfl rfl
  have H3 := resolveVariable_merge_spec.2.2.1 [("a", Val.vDict [("b", Val.vInt 1)])]
    "a.c" "a" "c" [("b", Val.vInt 1)] (Val.vInt 2) rfl rfl rfl
  have H4 := resolveVariable_merge_spec.2.2.2.1 [("a", Val.vDict [("b", Val.vInt 5)])]
    "a.b" "a" "b" [("b", Val.vInt 5)] (Val.vInt 5) (Val.vStr "x") rfl rfl rfl
    (fun e h => Val.noConfusion h)
  exact ⟨H2.1, H2.2, H3, H4⟩

/-- Claim C7, counterexample: when the existing value at the root key
is not a mapping (`a = 5`), the dotted write `a.b = 1` does not
overwrite the old leaf with a fresh mapping as the claim requires — the
recursive merge evaluates `'b' in 5` and raises a `TypeError`. -/
theorem resolveVariable_nonmapping_root_counterexample :
    resolveVariable [("a", Val.vInt 5)] "a.b" (Val.vInt 1) = Except.error () ∧
    (Except.error () : Except Unit Ctx) ≠
      Except.ok [("a", Val.vDict [("b", Val.vInt 1)])] :=
  ⟨rfl, fun h => Except.noConfusion h⟩

end Folker
